import Mathlib

/-!
Shallow embedding of the `infinite_arrays` Rust library.

The library provides lazily evaluated unbounded sequences with indexed
access (`get`), iteration (`iter`), pointwise arithmetic composition
(`operations.rs`), arithmetic-progression ranges (`ranges.rs`) and a
mutable overlay cache over an immutable base sequence (`cache.rs`).

Modelling conventions:
  * Rust `usize` indices become `Nat`; where machine overflow is the point
    of a claim, a separate definition computes modulo `2 ^ 64` explicitly.
  * The `InfiniteArray<T>` trait becomes a type class providing `get`
    (and the defaulted `len`, which always returns `none` here).
  * `std::collections::HashMap<usize, T>` becomes an association list
    `List (Nat × T)`; `insert` replaces any earlier binding at the key,
    `len` is the list length, lookup is `List.lookup`.
  * Rust iterators become explicit state types with a
    `next : S → Option T × S` function, exactly mirroring each source
    iterator's `next` body; `iterNth` extracts the n-th produced element.
  * `Clone` on pure sequence values is the identity, so the per-index
    `clone()` calls in `operations.rs` disappear in the embedding.
-/

/-- The `InfiniteArray<T>` trait of `arrays.rs`: indexed access plus the
defaulted `len`, which returns `None` (unbounded) for every type here. -/
class InfiniteArray (A : Type u) (T : outParam (Type v)) where
  get : A → Nat → T
  len : A → Option Nat := fun _ => none

/-- `Ones<T>` from `arrays.rs`: an infinite array filled with ones. -/
structure Ones (T : Type u) : Type u

/-- `Ones::new`. -/
def Ones.new (T : Type u) : Ones T := ⟨⟩

/-- `Ones::get`: ignores the index and returns `T::one()`. -/
def Ones.get [One T] (_ : Ones T) (_ : Nat) : T := 1

instance [One T] : InfiniteArray (Ones T) T where
  get := Ones.get

/-- Iterator state of `OnesIter<T>`. -/
structure OnesIter (T : Type u) : Type u where
  value : T

/-- `Ones::iter`: builds a `OnesIter` holding `T::one()`. -/
def Ones.iter [One T] (_ : Ones T) : OnesIter T := ⟨1⟩

/-- `OnesIter::next`: always yields the stored value, state unchanged. -/
def OnesIter.next (it : OnesIter T) : Option T × OnesIter T :=
  (some it.value, it)

/-- `Zeros<T>` from `arrays.rs`: an infinite array filled with zeros. -/
structure Zeros (T : Type u) : Type u

/-- `Zeros::new`. -/
def Zeros.new (T : Type u) : Zeros T := ⟨⟩

/-- `Zeros::get`: ignores the index and returns `T::zero()`. -/
def Zeros.get [Zero T] (_ : Zeros T) (_ : Nat) : T := 0

instance [Zero T] : InfiniteArray (Zeros T) T where
  get := Zeros.get

/-- Iterator state of `ZerosIter<T>`. -/
structure ZerosIter (T : Type u) : Type u where
  value : T

/-- `Zeros::iter`: builds a `ZerosIter` holding `T::zero()`. -/
def Zeros.iter [Zero T] (_ : Zeros T) : ZerosIter T := ⟨0⟩

/-- `ZerosIter::next`: always yields the stored value, state unchanged. -/
def ZerosIter.next (it : ZerosIter T) : Option T × ZerosIter T :=
  (some it.value, it)

/-- `InfiniteArrayFromFn<F, T>` from `arrays.rs`: an infinite array backed
by a pure function `usize -> T`. -/
structure InfiniteArrayFromFn (T : Type u) : Type u where
  f : Nat → T

/-- `InfiniteArrayFromFn::new`. -/
def InfiniteArrayFromFn.new (f : Nat → T) : InfiniteArrayFromFn T := ⟨f⟩

/-- `InfiniteArrayFromFn::get`: calls the stored function. -/
def InfiniteArrayFromFn.get (a : InfiniteArrayFromFn T) (index : Nat) : T :=
  a.f index

instance : InfiniteArray (InfiniteArrayFromFn T) T where
  get := InfiniteArrayFromFn.get

/-- Iterator state for `InfiniteArrayFromFn::iter`, which is
`(0..).map(move |i| (self.f)(i))`: the borrowed function plus the counter
of the `(0..)` range. -/
structure InfiniteArrayFromFnIter (T : Type u) : Type u where
  f : Nat → T
  index : Nat

/-- `InfiniteArrayFromFn::iter`: the counter starts at 0. -/
def InfiniteArrayFromFn.iter (a : InfiniteArrayFromFn T) :
    InfiniteArrayFromFnIter T :=
  ⟨a.f, 0⟩

/-- `next` on `(0..).map f`: yields `f index` and advances the counter. -/
def InfiniteArrayFromFnIter.next (it : InfiniteArrayFromFnIter T) :
    Option T × InfiniteArrayFromFnIter T :=
  (some (it.f it.index), ⟨it.f, it.index + 1⟩)

/-- `CachedArray<T, A>` from `cache.rs`: a base infinite array plus a
sparse override mapping (the Rust `HashMap<usize, T>`, modelled as an
association list whose insert replaces earlier bindings at the key). -/
structure CachedArray (T : Type v) (A : Type u) : Type (max u v) where
  base : A
  cache : List (Nat × T)

/-- `CachedArray::new`: wraps the base with an empty cache. -/
def CachedArray.new (base : A) : CachedArray T A := ⟨base, []⟩

/-- `CachedArray::get`: the override value when the index has one, else
`self.base.get(index)`. -/
def CachedArray.get [InfiniteArray A T] (c : CachedArray T A) (index : Nat) : T :=
  match c.cache.lookup index with
  | some v => v
  | none => InfiniteArray.get c.base index

/-- `CachedArray::set`: `self.cache.insert(index, value)` — replaces any
existing binding at `index` (the association-list image of `HashMap::insert`). -/
def CachedArray.set (c : CachedArray T A) (index : Nat) (value : T) :
    CachedArray T A :=
  ⟨c.base, (index, value) :: c.cache.filter (fun p => p.1 != index)⟩

/-- `CachedArray::get_mut`:
`self.cache.entry(index).or_insert_with(|| self.base.get(index))`.
Returns the new state together with the value now stored in the slot the
mutable reference points at. (The Rust signature also demands
`T: Default`, but the default value is never used.) -/
def CachedArray.get_mut [InfiniteArray A T] (c : CachedArray T A) (index : Nat) :
    CachedArray T A × T :=
  match c.cache.lookup index with
  | some v => (c, v)
  | none =>
    (⟨c.base, (index, InfiniteArray.get c.base index) :: c.cache⟩,
     InfiniteArray.get c.base index)

/-- `CachedArray::clear_cache`: `self.cache.clear()`. -/
def CachedArray.clear_cache (c : CachedArray T A) : CachedArray T A :=
  ⟨c.base, []⟩

/-- `CachedArray::cache_size`: `self.cache.len()`. -/
def CachedArray.cache_size (c : CachedArray T A) : Nat :=
  c.cache.length

instance [InfiniteArray A T] : InfiniteArray (CachedArray T A) T where
  get := CachedArray.get

/-- `CachedArrayIter<'a, T, A>`: a borrow of the cached array plus the
current index. -/
structure CachedArrayIter (T : Type v) (A : Type u) : Type (max u v) where
  cached : CachedArray T A
  index : Nat

/-- `CachedArray::iter`: index starts at 0. -/
def CachedArray.iter (c : CachedArray T A) : CachedArrayIter T A := ⟨c, 0⟩

/-- `CachedArrayIter::next`: `Some(self.cached.get(self.index))`, then
`self.index += 1`. -/
def CachedArrayIter.next [InfiniteArray A T] (it : CachedArrayIter T A) :
    Option T × CachedArrayIter T A :=
  (some (it.cached.get it.index), ⟨it.cached, it.index + 1⟩)

/-- The n-th element produced by an iterator with state type `S` and step
function `next`, starting from state `s` (0-based: `iterNth next s 0` is
the first element `next` yields). -/
def iterNth (next : S → Option T × S) : S → Nat → Option T
  | s, 0 => (next s).1
  | s, n + 1 => iterNth next (next s).2 n

/-- `cumsum` from `operations.rs`:
`InfiniteArrayFromFn::new(move |i| (0..=i).fold(T::zero(), |acc, idx| acc + arr.get(idx)))`.
`List.range (i + 1)` is the index sequence `0..=i`. -/
def cumsum [Zero T] [Add T] [InfiniteArray A T] (arr : A) :
    InfiniteArrayFromFn T :=
  InfiniteArrayFromFn.new fun i =>
    (List.range (i + 1)).foldl (fun acc idx => acc + InfiniteArray.get arr idx) 0

/-- `broadcast` from `operations.rs`: `result.get(i) = f(arr.get(i))`. -/
def broadcast [InfiniteArray A TIn] (arr : A) (f : TIn → TOut) :
    InfiniteArrayFromFn TOut :=
  InfiniteArrayFromFn.new fun i => f (InfiniteArray.get arr i)

/-- `add_arrays` from `operations.rs`: elementwise `+`. -/
def add_arrays [Add T] [InfiniteArray A T] [InfiniteArray B T] (a : A) (b : B) :
    InfiniteArrayFromFn T :=
  InfiniteArrayFromFn.new fun i => InfiniteArray.get a i + InfiniteArray.get b i

/-- `sub_arrays` from `operations.rs`: elementwise `-`. -/
def sub_arrays [Sub T] [InfiniteArray A T] [InfiniteArray B T] (a : A) (b : B) :
    InfiniteArrayFromFn T :=
  InfiniteArrayFromFn.new fun i => InfiniteArray.get a i - InfiniteArray.get b i

/-- `mul_arrays` from `operations.rs`: elementwise `*`. -/
def mul_arrays [Mul T] [InfiniteArray A T] [InfiniteArray B T] (a : A) (b : B) :
    InfiniteArrayFromFn T :=
  InfiniteArrayFromFn.new fun i => InfiniteArray.get a i * InfiniteArray.get b i

/-- `div_arrays` from `operations.rs`: elementwise `/`, with no special
case for a zero divisor — the element type's division is applied as is. -/
def div_arrays [Div T] [InfiniteArray A T] [InfiniteArray B T] (a : A) (b : B) :
    InfiniteArrayFromFn T :=
  InfiniteArrayFromFn.new fun i => InfiniteArray.get a i / InfiniteArray.get b i

/-- `add_scalar` from `operations.rs`. -/
def add_scalar [Add T] [InfiniteArray A T] (arr : A) (scalar : T) :
    InfiniteArrayFromFn T :=
  InfiniteArrayFromFn.new fun i => InfiniteArray.get arr i + scalar

/-- `mul_scalar` from `operations.rs`. -/
def mul_scalar [Mul T] [InfiniteArray A T] (arr : A) (scalar : T) :
    InfiniteArrayFromFn T :=
  InfiniteArrayFromFn.new fun i => InfiniteArray.get arr i * scalar

/-- The `T: From<usize>` bound used throughout `ranges.rs`. -/
class FromUsize (T : Type u) where
  fromUsize : Nat → T

instance : FromUsize Int where
  fromUsize := Int.ofNat

/-- `OneToInf<T>` from `ranges.rs`: the range 1, 2, 3, …. -/
structure OneToInf (T : Type u) : Type u

/-- `OneToInf::new`. -/
def OneToInf.new (T : Type u) : OneToInf T := ⟨⟩

/-- `OneToInf::get`: `T::from(index + 1)` (the `+ 1` happens in `usize`;
idealized here over `Nat`, the machine-width version is `OneToInf.getWrap`). -/
def OneToInf.get [FromUsize T] (_ : OneToInf T) (index : Nat) : T :=
  FromUsize.fromUsize (index + 1)

/-- Iterator state of `OneToInfIter<T>`. -/
structure OneToInfIter (T : Type u) : Type u where
  current : T

/-- `OneToInf::iter`: starts at `T::one()`. -/
def OneToInf.iter [One T] (_ : OneToInf T) : OneToInfIter T := ⟨1⟩

/-- `OneToInfIter::next`: yields `current`, then adds `T::one()`. -/
def OneToInfIter.next [Add T] [One T] (it : OneToInfIter T) :
    Option T × OneToInfIter T :=
  (some it.current, ⟨it.current + 1⟩)

/-- `InfUnitRange<T>` from `ranges.rs`. -/
structure InfUnitRange (T : Type u) : Type u where
  start : T

/-- `InfUnitRange::new`. -/
def InfUnitRange.new (start : T) : InfUnitRange T := ⟨start⟩

/-- `InfUnitRange::get`: `start` when `index == 0`, else
`start + T::from(index)`. -/
def InfUnitRange.get [FromUsize T] [Add T] (r : InfUnitRange T) (index : Nat) : T :=
  if index = 0 then r.start else r.start + FromUsize.fromUsize index

/-- Iterator state of `InfUnitRangeIter<T>`. -/
structure InfUnitRangeIter (T : Type u) : Type u where
  current : T

/-- `InfUnitRange::iter`: starts at `start`. -/
def InfUnitRange.iter (r : InfUnitRange T) : InfUnitRangeIter T := ⟨r.start⟩

/-- `InfUnitRangeIter::next`: yields `current`, then adds `T::one()`. -/
def InfUnitRangeIter.next [Add T] [One T] (it : InfUnitRangeIter T) :
    Option T × InfUnitRangeIter T :=
  (some it.current, ⟨it.current + 1⟩)

/-- `InfStepRange<T>` from `ranges.rs`. -/
structure InfStepRange (T : Type u) : Type u where
  start : T
  step : T

/-- `InfStepRange::new`. -/
def InfStepRange.new (start step : T) : InfStepRange T := ⟨start, step⟩

/-- `InfStepRange::get`: `start + step * T::from(index)`. -/
def InfStepRange.get [FromUsize T] [Add T] [Mul T] (r : InfStepRange T)
    (index : Nat) : T :=
  r.start + r.step * FromUsize.fromUsize index

/-- Iterator state of `InfStepRangeIter<T>`. -/
structure InfStepRangeIter (T : Type u) : Type u where
  current : T
  step : T

/-- `InfStepRange::iter`: starts at `start`, carrying `step`. -/
def InfStepRange.iter (r : InfStepRange T) : InfStepRangeIter T :=
  ⟨r.start, r.step⟩

/-- `InfStepRangeIter::next`: yields `current`, then adds `step`. -/
def InfStepRangeIter.next [Add T] (it : InfStepRangeIter T) :
    Option T × InfStepRangeIter T :=
  (some it.current, ⟨it.current + it.step, it.step⟩)

/-- Bit width of `usize` on a 64-bit target. -/
def usizeBits : Nat := 64

/-- `usize::MAX` on a 64-bit target. -/
def usizeMax : Nat := 2 ^ usizeBits - 1

/-- The `index + 1` computation inside `OneToInf::get`, performed in
machine `usize` arithmetic with wrap-around (release-mode) semantics:
the sum is reduced modulo `2 ^ 64`. -/
def OneToInf.getWrap (index : Nat) : Nat :=
  (index + 1) % 2 ^ usizeBits

/-! ### Helper lemmas about the association-list cache model -/

theorem lookup_cons_self {T : Type v} (l : List (Nat × T)) (i : Nat) (v : T) :
    ((i, v) :: l).lookup i = some v := by
  simp [List.lookup_cons]

theorem lookup_cons_ne {T : Type v} (l : List (Nat × T)) {i j : Nat} (v : T)
    (h : j ≠ i) : ((i, v) :: l).lookup j = l.lookup j := by
  have hb : (j == i) = false := beq_eq_false_iff_ne.mpr h
  simp [List.lookup_cons, hb]

theorem lookup_filter_ne {T : Type v} (l : List (Nat × T)) {i j : Nat}
    (h : j ≠ i) :
    (l.filter fun p => p.1 != i).lookup j = l.lookup j := by
  induction l with
  | nil => rfl
  | cons p l ih =>
    obtain ⟨k, v⟩ := p
    by_cases hk : k = i
    · subst hk
      rw [List.filter_cons, if_neg (by simp)]
      rw [lookup_cons_ne l v h, ih]
    · rw [List.filter_cons, if_pos (by simpa using hk)]
      by_cases hj : j = k
      · subst hj
        rw [lookup_cons_self, lookup_cons_self]
      · rw [lookup_cons_ne _ v hj, lookup_cons_ne l v hj, ih]

theorem lookup_some_iff_mem_keys {T : Type v} (l : List (Nat × T)) (j : Nat) :
    (∃ w, l.lookup j = some w) ↔ j ∈ l.map Prod.fst := by
  induction l with
  | nil => simp
  | cons p l ih =>
    obtain ⟨k, v⟩ := p
    by_cases hk : j = k
    · subst hk
      simp [lookup_cons_self]
    · rw [lookup_cons_ne l v hk]
      simp [hk, ih]

theorem range_foldl_add_eq_sum {T : Type v} [AddCommMonoid T] (g : Nat → T)
    (n : Nat) :
    (List.range n).foldl (fun acc k => acc + g k) 0 =
      ∑ k ∈ Finset.range n, g k := by
  induction n with
  | zero => simp
  | succ n ih =>
    rw [List.range_succ, List.foldl_append, ih, Finset.sum_range_succ]
    simp

/-! ### Helper lemmas about the iterators -/

theorem iterNth_onesIter {T : Type v} (s : OnesIter T) (n : Nat) :
    iterNth OnesIter.next s n = some s.value := by
  induction n with
  | zero => rfl
  | succ n ih => simpa [iterNth, OnesIter.next] using ih

theorem iterNth_zerosIter {T : Type v} (s : ZerosIter T) (n : Nat) :
    iterNth ZerosIter.next s n = some s.value := by
  induction n with
  | zero => rfl
  | succ n ih => simpa [iterNth, ZerosIter.next] using ih

theorem iterNth_fromFnIter {T : Type v} (f : Nat → T) (k n : Nat) :
    iterNth InfiniteArrayFromFnIter.next ⟨f, k⟩ n = some (f (k + n)) := by
  induction n generalizing k with
  | zero => simp [iterNth, InfiniteArrayFromFnIter.next]
  | succ n ih =>
    rw [show k + (n + 1) = (k + 1) + n by omega]
    simpa [iterNth, InfiniteArrayFromFnIter.next] using ih (k + 1)

theorem iterNth_cachedArrayIter {T : Type v} {A : Type u} [InfiniteArray A T]
    (c : CachedArray T A) (k n : Nat) :
    iterNth CachedArrayIter.next ⟨c, k⟩ n = some (c.get (k + n)) := by
  induction n generalizing k with
  | zero => simp [iterNth, CachedArrayIter.next]
  | succ n ih =>
    rw [show k + (n + 1) = (k + 1) + n by omega]
    simpa [iterNth, CachedArrayIter.next] using ih (k + 1)

theorem iterNth_oneToInfIter (c : Int) (n : Nat) :
    iterNth OneToInfIter.next (⟨c⟩ : OneToInfIter Int) n = some (c + n) := by
  induction n generalizing c with
  | zero => simp [iterNth, OneToInfIter.next]
  | succ n ih =>
    have := ih (c + 1)
    rw [iterNth]
    simp only [OneToInfIter.next] at this ⊢
    rw [this]
    congr 1
    push_cast
    ring

theorem iterNth_stepRangeIter (c s : Int) (n : Nat) :
    iterNth InfStepRangeIter.next (⟨c, s⟩ : InfStepRangeIter Int) n =
      some (c + s * n) := by
  induction n generalizing c with
  | zero => simp [iterNth, InfStepRangeIter.next]
  | succ n ih =>
    have := ih (c + s)
    rw [iterNth]
    simp only [InfStepRangeIter.next] at this ⊢
    rw [this]
    congr 1
    push_cast
    ring

/-! ### Helper lemmas restating the cached-overlay operations -/

theorem CachedArray.get_eq {T : Type v} {A : Type u} [InfiniteArray A T]
    (c : CachedArray T A) (i : Nat) :
    c.get i = match c.cache.lookup i with
      | some v => v
      | none => InfiniteArray.get c.base i := rfl

theorem CachedArray.get_of_lookup_some {T : Type v} {A : Type u}
    [InfiniteArray A T] (c : CachedArray T A) {i : Nat} {v : T}
    (h : c.cache.lookup i = some v) : c.get i = v := by
  rw [CachedArray.get_eq, h]

theorem CachedArray.get_of_lookup_none {T : Type v} {A : Type u}
    [InfiniteArray A T] (c : CachedArray T A) {i : Nat}
    (h : c.cache.lookup i = none) : c.get i = InfiniteArray.get c.base i := by
  rw [CachedArray.get_eq, h]

theorem CachedArray.get_mut_eq {T : Type v} {A : Type u} [InfiniteArray A T]
    (c : CachedArray T A) (i : Nat) :
    c.get_mut i = match c.cache.lookup i with
      | some v => (c, v)
      | none =>
        (⟨c.base, (i, InfiniteArray.get c.base i) :: c.cache⟩,
         InfiniteArray.get c.base i) := rfl

theorem CachedArray.get_congr {T : Type v} {A : Type u} [InfiniteArray A T]
    (c d : CachedArray T A) (j : Nat) (hb : d.base = c.base)
    (hl : d.cache.lookup j = c.cache.lookup j) : d.get j = c.get j := by
  rw [CachedArray.get_eq, CachedArray.get_eq, hl, hb]

theorem get_ones {T : Type v} [One T] (o : Ones T) (i : Nat) :
    InfiniteArray.get o i = (1 : T) := rfl

theorem get_zeros {T : Type v} [Zero T] (z : Zeros T) (i : Nat) :
    InfiniteArray.get z i = (0 : T) := rfl

theorem fromUsize_int (n : Nat) : (FromUsize.fromUsize n : Int) = (n : Int) := rfl

/-! ### Claims -/

/-- **C1.** For every CachedArray state (any base, any override mapping)
and every index `i`, `get i` returns the override stored at `i` when one
is present and `base.get i` otherwise; and no CachedArray operation
(`set`, `clear_cache`, `get_mut`) ever changes the base sequence. -/
theorem claim_C1 {T : Type v} {A : Type u} [InfiniteArray A T]
    (c : CachedArray T A) (i : Nat) :
    (∀ v, c.cache.lookup i = some v → c.get i = v) ∧
    (c.cache.lookup i = none → c.get i = InfiniteArray.get c.base i) ∧
    (∀ v, (c.set i v).base = c.base) ∧
    c.clear_cache.base = c.base ∧
    (c.get_mut i).1.base = c.base := by
  refine ⟨fun v hv => CachedArray.get_of_lookup_some c hv,
    fun hv => CachedArray.get_of_lookup_none c hv, fun v => rfl, rfl, ?_⟩
  rw [CachedArray.get_mut_eq]
  cases c.cache.lookup i <;> rfl

/-- Witness for C1: base `fun n => n` over `ℕ` with the single override
`2 ↦ 5`; index 2 is overridden, index 3 falls through to the base. -/
theorem claim_C1_witness :
    (CachedArray.mk (InfiniteArrayFromFn.new fun n => n) [(2, 5)]).get 2 = 5 ∧
    (CachedArray.mk (InfiniteArrayFromFn.new fun n => n) [(2, 5)]).get 3 = 3 :=
  ⟨(claim_C1 (CachedArray.mk (InfiniteArrayFromFn.new fun n => n) [(2, 5)]) 2).1 5 rfl,
   (claim_C1 (CachedArray.mk (InfiniteArrayFromFn.new fun n => n) [(2, 5)]) 3).2.1 rfl⟩

/-- **C4.** After `set i v`, `get i` returns `v`; every other index reads
exactly what it read before; and `set` is unconditional — the override at
`i` now holds `v`, whatever was there before. -/
theorem claim_C4 {T : Type v} {A : Type u} [InfiniteArray A T]
    (c : CachedArray T A) (i : Nat) (v : T) :
    (c.set i v).get i = v ∧
    (∀ j, j ≠ i → (c.set i v).get j = c.get j) ∧
    (c.set i v).cache.lookup i = some v := by
  refine ⟨CachedArray.get_of_lookup_some _ (lookup_cons_self _ i v), ?_,
    lookup_cons_self _ i v⟩
  intro j hj
  refine CachedArray.get_congr c (c.set i v) j rfl ?_
  show ((i, v) :: c.cache.filter fun p => p.1 != i).lookup j = c.cache.lookup j
  rw [lookup_cons_ne _ v hj, lookup_filter_ne c.cache hj]

/-- Witness for C4: overriding index 0 of the ones sequence with 3 leaves
index 1 reading 1, as in the `cache.rs` unit test. -/
theorem claim_C4_witness :
    ((CachedArray.new (Ones.new Nat) : CachedArray Nat (Ones Nat)).set 0 3).get 0 = 3 ∧
    (1 : Nat) ≠ 0 ∧
    ((CachedArray.new (Ones.new Nat) : CachedArray Nat (Ones Nat)).set 0 3).get 1 =
      (CachedArray.new (Ones.new Nat) : CachedArray Nat (Ones Nat)).get 1 :=
  ⟨(claim_C4 (CachedArray.new (Ones.new Nat)) 0 3).1, one_ne_zero,
   (claim_C4 (CachedArray.new (Ones.new Nat)) 0 3).2.1 1 one_ne_zero⟩

/-- **C5.** After `clear_cache`, every `get i` falls through to
`base.get i` and `cache_size` is 0; an index carries an override exactly
when it is among the cache's keys, and for a cache with distinct keys
(which every reachable `HashMap` state has) `cache_size` is the number of
distinct overridden indices. -/
theorem claim_C5 {T : Type v} {A : Type u} [InfiniteArray A T]
    (c : CachedArray T A) (i : Nat) :
    c.clear_cache.get i = InfiniteArray.get c.base i ∧
    c.clear_cache.cache_size = 0 ∧
    (∀ j, (∃ w, c.cache.lookup j = some w) ↔ j ∈ c.cache.map Prod.fst) ∧
    ((c.cache.map Prod.fst).Nodup →
      c.cache_size = (c.cache.map Prod.fst).toFinset.card) := by
  refine ⟨rfl, rfl, fun j => lookup_some_iff_mem_keys c.cache j, fun hnd => ?_⟩
  rw [List.toFinset_card_of_nodup hnd, List.length_map]
  rfl

/-- Witness for C5: a concrete two-override cache with distinct keys,
whose `cache_size` is the cardinality of its key set. -/
theorem claim_C5_witness :
    (([(1, 10), (2, 20)] : List (Nat × Nat)).map Prod.fst).Nodup ∧
    (CachedArray.mk (InfiniteArrayFromFn.new fun n => n)
        [(1, 10), (2, 20)]).cache_size =
      (([(1, 10), (2, 20)] : List (Nat × Nat)).map Prod.fst).toFinset.card :=
  ⟨by decide,
   (claim_C5 (CachedArray.mk (InfiniteArrayFromFn.new fun n => n)
      [(1, 10), (2, 20)]) 0).2.2.2 (by decide)⟩

/-- **C6.** `get_mut i` on a state with no override at `i` materializes
the slot from `base.get i` (not from the element type's default): the
returned slot holds `base.get i`, a subsequent `get i` without an
intervening write reads `base.get i`, and `cache_size` grows by one.
When an override already exists at `i`, the state is unchanged and the
existing slot value is returned. -/
theorem claim_C6 {T : Type v} {A : Type u} [InfiniteArray A T]
    (c : CachedArray T A) (i : Nat) :
    (c.cache.lookup i = none →
      (c.get_mut i).2 = InfiniteArray.get c.base i ∧
      (c.get_mut i).1.get i = InfiniteArray.get c.base i ∧
      (c.get_mut i).1.cache_size = c.cache_size + 1) ∧
    (∀ v, c.cache.lookup i = some v →
      (c.get_mut i).1 = c ∧ (c.get_mut i).2 = v) := by
  constructor
  · intro h
    have hm : c.get_mut i =
        (⟨c.base, (i, InfiniteArray.get c.base i) :: c.cache⟩,
         InfiniteArray.get c.base i) := by
      rw [CachedArray.get_mut_eq, h]
    rw [hm]
    exact ⟨rfl, CachedArray.get_of_lookup_some _ (lookup_cons_self c.cache i _), rfl⟩
  · intro v hv
    have hm : c.get_mut i = (c, v) := by rw [CachedArray.get_mut_eq, hv]
    rw [hm]
    exact ⟨rfl, rfl⟩

/-- Witness for C6: over the identity base, `get_mut 4` on an empty cache
materializes `base.get 4 = 4` (and not `default = 0`), and on a cache that
already overrides `4 ↦ 7` it returns 7 and changes nothing. -/
theorem claim_C6_witness :
    ((CachedArray.mk (InfiniteArrayFromFn.new fun n => n)
        ([] : List (Nat × Nat))).get_mut 4).2 = 4 ∧
    ((CachedArray.mk (InfiniteArrayFromFn.new fun n => n) [(4, 7)]).get_mut 4).2 = 7 :=
  ⟨((claim_C6 (CachedArray.mk (InfiniteArrayFromFn.new fun n => n) []) 4).1 rfl).1,
   ((claim_C6 (CachedArray.mk (InfiniteArrayFromFn.new fun n => n) [(4, 7)]) 4).2 7 rfl).2⟩

/-- **C2.** For every input sequence over an additively commutative monoid
element type, `cumsum(seq).get i` is the sum `seq.get 0 + … + seq.get i`
(the fold starting from the additive identity); in particular
`cumsum(Ones).get i = i + 1`. -/
theorem claim_C2 {T : Type v} {A : Type u} [AddCommMonoid T]
    [InfiniteArray A T] (seq : A) (i : Nat) :
    (cumsum seq).get i = ∑ k ∈ Finset.range (i + 1), InfiniteArray.get seq k ∧
    (cumsum (Ones.new Nat)).get i = i + 1 := by
  constructor
  · exact range_foldl_add_eq_sum (fun k => InfiniteArray.get seq k) (i + 1)
  · rw [show (cumsum (Ones.new Nat)).get i =
        ∑ k ∈ Finset.range (i + 1), (1 : Nat) from
      range_foldl_add_eq_sum (fun k => (1 : Nat)) (i + 1)]
    simp

/-- **C3.** For each of the four iterable sequences — `Ones`, `Zeros`,
`InfiniteArrayFromFn`, `CachedArray` — the n-th element produced by the
iterator returned by `iter` is `some (get n)`, and `next` yields `some`
from every iterator state, so the iteration never terminates. -/
theorem claim_C3 {T : Type v} {A : Type u} [One T] [Zero T]
    [InfiniteArray A T] (o : Ones T) (z : Zeros T) (g : InfiniteArrayFromFn T)
    (c : CachedArray T A) (n : Nat) (so : OnesIter T) (sz : ZerosIter T)
    (sg : InfiniteArrayFromFnIter T) (sc : CachedArrayIter T A) :
    iterNth OnesIter.next o.iter n = some (o.get n) ∧
    iterNth ZerosIter.next z.iter n = some (z.get n) ∧
    iterNth InfiniteArrayFromFnIter.next g.iter n = some (g.get n) ∧
    iterNth CachedArrayIter.next c.iter n = some (c.get n) ∧
    (OnesIter.next so).1 ≠ none ∧
    (ZerosIter.next sz).1 ≠ none ∧
    (InfiniteArrayFromFnIter.next sg).1 ≠ none ∧
    (CachedArrayIter.next sc).1 ≠ none := by
  refine ⟨iterNth_onesIter o.iter n, iterNth_zerosIter z.iter n, ?_, ?_,
    by simp [OnesIter.next], by simp [ZerosIter.next],
    by simp [InfiniteArrayFromFnIter.next], by simp [CachedArrayIter.next]⟩
  · have h := iterNth_fromFnIter g.f 0 n
    rwa [Nat.zero_add] at h
  · have h := iterNth_cachedArrayIter c 0 n
    rwa [Nat.zero_add] at h

/-- **C7.** The four elementwise operations satisfy
`result.get i = a.get i OP b.get i`; division applies the element type's
`/` with no special case for a zero divisor (instantiated at `ℚ`, dividing
the ones sequence by the zeros sequence yields exactly `1 / 0`). -/
theorem claim_C7 {T : Type v} {A : Type u} {B : Type w} [Add T] [Sub T]
    [Mul T] [Div T] [InfiniteArray A T] [InfiniteArray B T] (a : A) (b : B)
    (i : Nat) :
    (add_arrays a b).get i = InfiniteArray.get a i + InfiniteArray.get b i ∧
    (sub_arrays a b).get i = InfiniteArray.get a i - InfiniteArray.get b i ∧
    (mul_arrays a b).get i = InfiniteArray.get a i * InfiniteArray.get b i ∧
    (div_arrays a b).get i = InfiniteArray.get a i / InfiniteArray.get b i ∧
    (div_arrays (Ones.new Rat) (Zeros.new Rat)).get i = (1 : Rat) / 0 :=
  ⟨rfl, rfl, rfl, rfl, rfl⟩

/-- **C8.** Over the exact integer type `ℤ`, repeated addition in the
iterators agrees with the closed forms: `InfStepRange(start, step)`'s
iterator produces `start + step * n` at position `n`, which is `get n`;
and `OneToInf`'s iterator, starting from one and repeatedly adding one,
produces `get n = n + 1` at position `n`. -/
theorem claim_C8 (start step : Int) (n : Nat) :
    iterNth InfStepRangeIter.next (InfStepRange.new start step).iter n =
      some ((InfStepRange.new start step).get n) ∧
    iterNth OneToInfIter.next (OneToInf.new Int).iter n =
      some ((OneToInf.new Int).get n) ∧
    (OneToInf.new Int).get n = (n : Int) + 1 := by
  have hget : (OneToInf.new Int).get n = (n : Int) + 1 := by
    show ((n + 1 : Nat) : Int) = (n : Int) + 1
    push_cast
    ring
  refine ⟨iterNth_stepRangeIter start step n, ?_, hget⟩
  rw [hget]
  have h := iterNth_oneToInfIter 1 n
  rwa [show (1 : Int) + n = (n : Int) + 1 by ring] at h

/-- **C9.** `InfUnitRange(start).get i = start + fromUsize i` uniformly:
whenever the `usize` conversion sends 0 to the additive identity, the
special `i = 0` branch returning `start` agrees with the general formula. -/
theorem claim_C9 {T : Type v} [AddZeroClass T] [FromUsize T]
    (h0 : (FromUsize.fromUsize 0 : T) = 0) (start : T) (i : Nat) :
    (InfUnitRange.new start).get i = start + FromUsize.fromUsize i := by
  unfold InfUnitRange.get
  by_cases hi : i = 0
  · subst hi
    rw [if_pos rfl, h0, add_zero]
    rfl
  · rw [if_neg hi]
    rfl

/-- Witness for C9 at `T = ℤ`, where `fromUsize 0` is definitionally 0. -/
theorem claim_C9_witness :
    (FromUsize.fromUsize 0 : Int) = 0 ∧
    (InfUnitRange.new (5 : Int)).get 10 = 5 + FromUsize.fromUsize 10 :=
  ⟨rfl, claim_C9 rfl 5 10⟩

/-- **C10.** The `index + 1` inside `OneToInf::get` is machine `usize`
arithmetic: under wrap-around semantics it yields 0 at
`index = usize::MAX` (not the mathematical `usize::MAX + 1`), while for
every index strictly below `usize::MAX` it yields exactly `index + 1`. -/
theorem claim_C10 :
    OneToInf.getWrap usizeMax = 0 ∧
    OneToInf.getWrap usizeMax ≠ usizeMax + 1 ∧
    ∀ i, i < usizeMax → OneToInf.getWrap i = i + 1 := by
  have hpow : (2 : Nat) ^ usizeBits = 18446744073709551616 := by
    norm_num [usizeBits]
  have hmax : usizeMax = 18446744073709551615 := by
    norm_num [usizeMax, usizeBits]
  refine ⟨?_, ?_, ?_⟩
  · unfold OneToInf.getWrap
    rw [hmax, hpow]
  · unfold OneToInf.getWrap
    rw [hmax, hpow]
    norm_num
  · intro i hi
    unfold OneToInf.getWrap
    apply Nat.mod_eq_of_lt
    rw [hpow]
    rw [hmax] at hi
    omega

/-- Witness for C10: index 41 is below `usize::MAX` and the machine
computation yields 42. -/
theorem claim_C10_witness :
    (41 : Nat) < usizeMax ∧ OneToInf.getWrap 41 = 42 :=
  ⟨by norm_num [usizeMax, usizeBits],
   claim_C10.2.2 41 (by norm_num [usizeMax, usizeBits])⟩
